import Mathlib

set_option linter.unusedVariables false

/-! Shallow embedding of the minio XL erasure-coded read path
(`getMetaDataFileVersions`, `getReadFileQuorumDisks`, `ReadFile` and its
producer loop) and of the filesystem `ListObjects` collection loop.
Disks are identified by natural numbers; byte values by natural numbers;
Go `int64` values by `ℤ`.  Go maps are embedded as association lists in
iteration order (`Option` distinguishes the nil map), Go slices as lists
with bounds-checked stores, and Go panics as an explicit fault value. -/

/-- Go run-time faults (panics) reachable in the embedded code. -/
inductive GoFault where
  | nilMapWrite
  | indexOutOfRange
deriving DecidableEq, Repr

/-- Bounds-checked store `l[i] = x` on a Go slice: writing past the end of
the slice is a run-time fault. -/
def sliceStore {α : Type} (l : List α) (i : ℕ) (x : α) : Except GoFault (List α) :=
  if i < l.length then .ok (l.set i x) else .error .indexOutOfRange

/-- Association-list update backing a (non-nil) Go map write. -/
def assocSet : List (ℕ × ℤ) → ℕ → ℤ → List (ℕ × ℤ)
  | [], k, v => [(k, v)]
  | (k', v') :: rest, k, v =>
      if k' = k then (k, v) :: rest else (k', v') :: assocSet rest k v

/-- Assignment `m[k] = v` on a Go map value; `none` embeds the nil map, on
which assignment panics. -/
def mapAssign (m : Option (List (ℕ × ℤ))) (k : ℕ) (v : ℤ) :
    Except GoFault (Option (List (ℕ × ℤ))) :=
  match m with
  | none => .error .nilMapWrite
  | some l => .ok (some (assocSet l k v))

/-- Outcome of reading and JSON-decoding `file.json` from one disk, as
distinguished by the branches of `getMetaDataFileVersions`: the read can
fail, the JSON can be malformed, `file.version` can be missing, fail to
parse as a number, or parse to a value `v`. -/
inductive MetaProbe where
  | readError
  | jsonError
  | noVersion
  | badVersion
  | version (v : ℤ)
deriving DecidableEq, Repr

/-- Loop body of `getMetaDataFileVersions`: each disk is first assigned
version `-1` (a write on the named-return map), then the assignment is
refined according to the metadata probe, exactly as the if/else-if chain
in the source does. -/
def getMetaDataFileVersionsGo :
    List (ℕ × MetaProbe) → Option (List (ℕ × ℤ)) →
    Except GoFault (Option (List (ℕ × ℤ)))
  | [], m => .ok m
  | (disk, probe) :: rest, m =>
      match mapAssign m disk (-1) with
      | .error f => .error f
      | .ok m1 =>
          match probe with
          | .readError => getMetaDataFileVersionsGo rest m1
          | .jsonError => getMetaDataFileVersionsGo rest m1
          | .badVersion => getMetaDataFileVersionsGo rest m1
          | .noVersion =>
              match mapAssign m1 disk 0 with
              | .error f => .error f
              | .ok m2 => getMetaDataFileVersionsGo rest m2
          | .version v =>
              match mapAssign m1 disk v with
              | .error f => .error f
              | .ok m2 => getMetaDataFileVersionsGo rest m2

/-- `XL.getMetaDataFileVersions`: the named return value
`diskVersionMap map[StorageAPI]int64` is never initialized with `make`,
so the loop starts from the nil map. -/
def getMetaDataFileVersions (probes : List (ℕ × MetaProbe)) :
    Except GoFault (Option (List (ℕ × ℤ))) :=
  getMetaDataFileVersionsGo probes none

/-- The version value that the loop body of `getMetaDataFileVersions`
assigns for a single disk: `-1` for an unreachable disk, malformed JSON
or an unparsable version, `0` when `file.version` is missing, and the
parsed value otherwise. -/
def metaVersion : MetaProbe → ℤ
  | .readError => -1
  | .jsonError => -1
  | .noVersion => 0
  | .badVersion => -1
  | .version v => v

/-- The per-disk version map that `getMetaDataFileVersions` would return
had its named-return map been initialized (the source's map is nil; see
the C10 analysis).  Disks are assumed distinct, so the map is just the
probe list with `metaVersion` applied, in iteration order. -/
def getMetaDataFileVersionsInit (probes : List (ℕ × MetaProbe)) : List (ℕ × ℤ) :=
  probes.map fun p => (p.1, metaVersion p.2)

/-- A quorum participant as built by `getReadFileQuorumDisks`: a disk
together with the `index` stored next to it. -/
structure QuorumDisk where
  disk : ℕ
  index : ℕ
deriving DecidableEq, Repr

/-- Loop of `getReadFileQuorumDisks`: running over the version map in
iteration order with `higherVersion` starting at `0` and a counter `i`
incremented for every disk, resetting the candidate list on a strictly
higher version and appending on an equal one. -/
def quorumFold : List (ℕ × ℤ) → ℤ → ℕ → List QuorumDisk → List QuorumDisk
  | [], _, _, q => q
  | (d, v) :: rest, hv, i, q =>
      if hv < v then quorumFold rest v (i + 1) [⟨d, i⟩]
      else if v = hv then quorumFold rest hv (i + 1) (q ++ [⟨d, i⟩])
      else quorumFold rest hv (i + 1) q

/-- `XL.getReadFileQuorumDisks`, parameterized by the version map in the
(unspecified) iteration order of the Go map. -/
def getReadFileQuorumDisks (m : List (ℕ × ℤ)) : List QuorumDisk :=
  quorumFold m 0 0 []

/-- Errors surfaced by `XL.ReadFile` before the stream starts. -/
inductive XLErr where
  | errReadQuorum
deriving DecidableEq, Repr

/-- The read-quorum check at the head of `XL.ReadFile`: compute the quorum
disks and fail with `errReadQuorum` when fewer than `readQuorum` disks
remain. -/
def readFileQuorumCheck (m : List (ℕ × ℤ)) (readQuorum : ℕ) :
    Except XLErr (List QuorumDisk) :=
  let q := getReadFileQuorumDisks m
  if q.length < readQuorum then .error .errReadQuorum else .ok q

/-- Pair every element with its position, starting from `i`. -/
def enumFrom {α : Type} : ℕ → List α → List (ℕ × α)
  | _, [] => []
  | i, a :: rest => (i, a) :: enumFrom (i + 1) rest

/-- The final value of the `higherVersion` accumulator: the maximum of `0`
and all versions in the map. -/
def higherVersionFinal (m : List (ℕ × ℤ)) : ℤ :=
  m.foldl (fun a p => max a p.2) 0

/-- The disks of `m` holding version `hv`, tagged with their positions in
the iteration order starting at `i`. -/
def quorumOf (m : List (ℕ × ℤ)) (hv : ℤ) (i : ℕ) : List QuorumDisk :=
  (enumFrom i m).filterMap fun p =>
    if p.2.2 = hv then some ⟨p.2.1, p.1⟩ else none

/-- Follows the spec's words: `V* = max(version_i)` over all disks and the
quorum set is every disk whose version equals `V*` (so a map where every
disk reports `-1` has `V* = -1` and the set contains all disks). -/
def specMaxVersion : List (ℕ × ℤ) → ℤ
  | [] => 0
  | p :: rest => rest.foldl (fun a q => max a q.2) p.2

/-- Follows the spec's words: the quorum set `{(d_i, i) : version_i = V*}`. -/
def specQuorumDisks (m : List (ℕ × ℤ)) : List QuorumDisk :=
  (enumFrom 0 m).filterMap fun p =>
    if p.2.2 = specMaxVersion m then some ⟨p.2.1, p.1⟩ else none

/-- Outcome of the shard-open loop of `XL.ReadFile`: a Go fault, the
`return nil, err` path once open failures exceed the tolerance, or
completion with the `readers` slice. -/
inductive OpenOutcome where
  | fault (f : GoFault)
  | openErr
  | ok (readers : List ℕ)
deriving DecidableEq, Repr

/-- Shard-open loop of `XL.ReadFile`: `readers` starts as the zero-length
slice `[]io.ReadCloser{}`; open failures are tolerated while
`readFileError < len(quorumDisks) - readQuorum`; a successful open stores
the reader with `readers[i] = erasuredPartReader` (a bounds-checked slice
write) and increments `i`.  `opens` lists, per quorum disk, `none` for a
failed part open and `some r` for a successfully opened reader `r`. -/
def openLoopGo (n rq : ℕ) :
    List (Option ℕ) → ℕ → ℕ → List ℕ → OpenOutcome
  | [], _, _, readers => .ok readers
  | o :: rest, rfe, i, readers =>
      match o with
      | none =>
          if (rfe : ℤ) < (n : ℤ) - (rq : ℤ) then
            openLoopGo n rq rest (rfe + 1) i readers
          else .openErr
      | some r =>
          match sliceStore readers i r with
          | .error f => .fault f
          | .ok readers2 => openLoopGo n rq rest rfe (i + 1) readers2

/-- The shard-open phase of `XL.ReadFile` on the list of per-quorum-disk
open results. -/
def readFileOpenPhase (opens : List (Option ℕ)) (rq : ℕ) : OpenOutcome :=
  openLoopGo opens.length rq opens 0 0 []

/-- Go's `len` on a possibly-nil byte slice (`len(nil) = 0`). -/
def optLen : Option (List ℕ) → ℕ
  | none => 0
  | some bytes => bytes.length

/-- `checkBlockSize`: the length of the first non-zero-length block, or `0`
when every block is nil or empty. -/
def checkBlockSize : List (Option (List ℕ)) → ℕ
  | [] => 0
  | b :: rest => if optLen b ≠ 0 then optLen b else checkBlockSize rest

/-- `getEncodedBlockLen`: `(inputLen + dataBlocks - 1) / dataBlocks`. -/
def getEncodedBlockLen (inputLen dataBlocks : ℕ) : ℕ :=
  (inputLen + dataBlocks - 1) / dataBlocks

/-- One shard reader inside the producer loop: the bytes it still has to
deliver, and whether reads on it fail with an IO error (an error other
than `io.EOF` / `io.ErrUnexpectedEOF`). -/
structure ShardReader where
  data : List ℕ
  broken : Bool
deriving DecidableEq, Repr

/-- Errors returned by `io.ReadFull`. -/
inductive ReadErr where
  | noErr
  | eof
  | unexpectedEOF
  | ioErr
deriving DecidableEq, Repr

/-- `io.ReadFull(reader, buf)` against a buffer of length `L` freshly
zero-initialized by `make([]byte, L)`: on a broken reader the error is a
plain IO error; otherwise all available bytes up to `L` are copied into
the buffer (its tail stays zero), with `nil` error on a full read,
`io.EOF` when no byte was available and `io.ErrUnexpectedEOF` on a short
read.  Returns the buffer, the error and the advanced reader. -/
def readFull (r : ShardReader) (L : ℕ) : List ℕ × ReadErr × ShardReader :=
  if r.broken then (List.replicate L 0, .ioErr, r)
  else
    let n := min L r.data.length
    let buf := r.data.take L ++ List.replicate (L - n) 0
    let e := if n = L then ReadErr.noErr
             else if n = 0 then ReadErr.eof else ReadErr.unexpectedEOF
    (buf, e, ⟨r.data.drop L, false⟩)

/-- The body of `for index, reader := range readers` for one shard: a nil
reader contributes a nil block; otherwise `io.ReadFull` fills the fresh
`curEncBlockSize`-byte buffer and the block is reset to nil only when the
error is non-nil and different from `io.ErrUnexpectedEOF`.  Returns the
resulting `enBlocks[index]` entry and the advanced reader. -/
def readShardBlock (L : ℕ) : Option ShardReader → Option (List ℕ) × Option ShardReader
  | none => (none, none)
  | some r =>
      let out := readFull r L
      if out.2.1 ≠ ReadErr.noErr ∧ out.2.1 ≠ ReadErr.unexpectedEOF
      then (none, some out.2.2)
      else (some out.1, some out.2.2)

/-- One pass of the shard-read loop over all `readers`, producing the
`enBlocks` array of width `totalBlocks` (entries past the readers stay at
their `make([][]byte, totalBlocks)` nil value) and the advanced readers. -/
def readBlocks (L totalBlocks : ℕ) (readers : List (Option ShardReader)) :
    List (Option (List ℕ)) × List (Option ShardReader) :=
  let pairs := readers.map (readShardBlock L)
  (pairs.map Prod.fst ++ List.replicate (totalBlocks - readers.length) none,
   pairs.map Prod.snd)

instance {ε α : Type} [DecidableEq ε] [DecidableEq α] : DecidableEq (Except ε α) :=
  fun x y =>
    match x, y with
    | .ok a, .ok b =>
        if h : a = b then .isTrue (by rw [h]) else .isFalse (fun hc => h (by cases hc; rfl))
    | .error e, .error f =>
        if h : e = f then .isTrue (by rw [h]) else .isFalse (fun hc => h (by cases hc; rfl))
    | .ok a, .error f => .isFalse (fun hc => by cases hc)
    | .error e, .ok b => .isFalse (fun hc => by cases hc)

/-- Behaviour of the Reed-Solomon codec calls for one block: the result of
the first `Verify`, of `Reconstruct`, of the second `Verify`, and of
`Join` (abstract error values are naturals). -/
structure BlockCodec where
  verify1 : Except ℕ Bool
  reconstruct : Except ℕ Unit
  verify2 : Except ℕ Bool
  join : Except ℕ Unit
deriving DecidableEq, Repr

/-- Errors with which the producer closes the pipe, tagged by the failing
step. -/
inductive StreamErr where
  | dataCorrupted
  | verifyErr (e : ℕ)
  | reconstructErr (e : ℕ)
  | corruptedAfterReconstruction
  | joinErr (e : ℕ)
deriving DecidableEq, Repr

/-- Per-block control flow of the producer: fail with the data-corrupted
error when every block is nil or zero length; otherwise `Verify`, on a
false verdict `Reconstruct` and re-`Verify`, failing when reconstruction
errors or the re-verification is still false; finally `Join`. `.ok` means
the block's `curBlockSize` decoded bytes were joined into the pipe. -/
def processBlock (codec : BlockCodec) (enBlocks : List (Option (List ℕ))) :
    Except StreamErr Unit :=
  if checkBlockSize enBlocks = 0 then .error .dataCorrupted
  else
    match codec.verify1 with
    | .error e => .error (.verifyErr e)
    | .ok true =>
        match codec.join with
        | .error e => .error (.joinErr e)
        | .ok _ => .ok ()
    | .ok false =>
        match codec.reconstruct with
        | .error e => .error (.reconstructErr e)
        | .ok _ =>
            match codec.verify2 with
            | .error e => .error (.verifyErr e)
            | .ok true =>
                match codec.join with
                | .error e => .error (.joinErr e)
                | .ok _ => .ok ()
            | .ok false => .error .corruptedAfterReconstruction

/-- Modelled from the spec: `erasureBlockSize = 4 MiB` (the constant is
defined outside the sampled sources). -/
def erasureBlockSize : ℤ := 4 * 1024 * 1024

/-- Result of the producer goroutine of `XL.ReadFile`: how the pipe was
closed, how many decoded bytes were joined into it (`Join` writes exactly
`curBlockSize` bytes per block, per the codec contract), and whether the
final reader-closing loop was reached. -/
structure ProducerResult where
  outcome : Except StreamErr Unit
  emitted : ℕ
  readersClosed : Bool
deriving DecidableEq, Repr

/-- The producer loop: starting from `totalLeft` it picks
`curBlockSize = min(erasureBlockSize, totalLeft)`, reads
`curEncBlockSize = getEncodedBlockLen curBlockSize dataBlocks` bytes from
every reader into `enBlocks`, processes the block, and on success joins
`curBlockSize` bytes and decrements `totalLeft` by `erasureBlockSize`.
On a block error it closes the pipe with that error and returns at once,
without reaching the reader-closing loop; after the loop it closes the
pipe cleanly and closes all readers.  `codecs k` is the codec behaviour
on the `k`-th block. -/
def producerGo (dataBlocks totalBlocks : ℕ) (codecs : ℕ → BlockCodec)
    (k : ℕ) (readers : List (Option ShardReader)) (totalLeft : ℤ)
    (emitted : ℕ) : ProducerResult :=
  if h : 0 < totalLeft then
    let curBlockSize : ℤ :=
      if erasureBlockSize < totalLeft then erasureBlockSize else totalLeft
    let curEncBlockSize := getEncodedBlockLen curBlockSize.toNat dataBlocks
    let rb := readBlocks curEncBlockSize totalBlocks readers
    match processBlock (codecs k) rb.1 with
    | .error e => ⟨.error e, emitted, false⟩
    | .ok _ =>
        producerGo dataBlocks totalBlocks codecs (k + 1) rb.2
          (totalLeft - erasureBlockSize) (emitted + curBlockSize.toNat)
  else ⟨.ok (), emitted, true⟩
termination_by totalLeft.toNat
decreasing_by
  simp only [erasureBlockSize] at *
  omega

/-- The producer of `XL.ReadFile`: the source initializes its counter with
`var totalLeft = fileSize`; the `offset` argument of `ReadFile` is passed
to the shard opens but does not enter the counter. -/
def readFileProducer (dataBlocks totalBlocks : ℕ) (codecs : ℕ → BlockCodec)
    (readers : List (Option ShardReader)) (fileSize offset : ℤ) : ProducerResult :=
  producerGo dataBlocks totalBlocks codecs 0 readers fileSize 0

/-- One entry received from the walker channel in `ListObjects`: its name,
whether it is a directory, and whether its `Err` field is non-nil. -/
structure ObjInfo where
  name : List Char
  isDir : Bool
  errFlag : Bool
deriving DecidableEq, Repr

/-- The listing result assembled by `ListObjects`, together with two
facts recorded for analysis: `emitted` lists, in order, the names of all
entries counted toward `maxKeys` (appended exactly where the source
assigns `nextMarker = objInfo.Name; i++`), and `pushed` records the
marker key under which the walker was pushed back into the continuation
cache (`none` when it was not pushed). -/
structure ListObjectsResult where
  objects : List ObjInfo
  prefixes : List (List Char)
  isTruncated : Bool
  nextMarker : List Char
  emitted : List (List Char)
  pushed : Option (List Char)
deriving DecidableEq, Repr

/-- Character-list test backing `strings.HasPrefix`. -/
def startsWithL : List Char → List Char → Bool
  | _, [] => true
  | [], _ :: _ => false
  | c :: s, d :: t => c = d && startsWithL s t

/-- `strings.Contains s sub`: `sub` occurs as a contiguous substring. -/
def strContains : List Char → List Char → Bool
  | [], sub => startsWithL [] sub
  | s@(_ :: rest), sub => startsWithL s sub || strContains rest sub

/-- The reserved-name filter of `ListObjects`: names containing
`$multiparts` or `$tmpobject` are skipped. -/
def reservedName (n : List Char) : Bool :=
  strContains n "$multiparts".data || strContains n "$tmpobject".data

/-- Modelled from the spec: `listObjectsLimit = 1000` (the constant is
defined outside the sampled sources). -/
def listObjectsLimit : ℤ := 1000

/-- The `maxKeys` clamping of `ListObjects`: negative or overflowing
values are reset to `listObjectsLimit`. -/
def clampMaxKeys (maxKeys : ℤ) : ℕ :=
  if maxKeys < 0 ∨ listObjectsLimit < maxKeys then listObjectsLimit.toNat
  else maxKeys.toNat

/-- The empty `ListObjectsResult` the collection loop starts from. -/
def emptyListResult : ListObjectsResult :=
  ⟨[], [], false, [], [], none⟩

/-- The collection loop `for i := 0; i < maxKeys;` of `ListObjects` over
the walker entries: a closed channel returns the result as accumulated
(`IsTruncated` still false, nothing pushed); an entry with a non-nil
`Err` aborts with an error; names containing a reserved substring are
skipped without touching the counter or `nextMarker`; directory entries
go to `Prefixes` and file entries to `Objects`, each setting `nextMarker`
and incrementing `i`; once `i` reaches `maxKeys` the result is marked
truncated, `NextMarker` is set and the walker is pushed back keyed by it. -/
def listLoopGo (mk : ℕ) :
    List ObjInfo → ℕ → List Char → ListObjectsResult →
    Except Unit ListObjectsResult
  | [], i, nm, res =>
      if i < mk then .ok res
      else .ok { res with isTruncated := true, nextMarker := nm, pushed := some nm }
  | o :: rest, i, nm, res =>
      if i < mk then
        if o.errFlag then .error ()
        else if reservedName o.name then listLoopGo mk rest i nm res
        else if o.isDir then
          listLoopGo mk rest (i + 1) o.name
            { res with prefixes := res.prefixes ++ [o.name],
                       emitted := res.emitted ++ [o.name] }
        else
          listLoopGo mk rest (i + 1) o.name
            { res with objects := res.objects ++ [o],
                       emitted := res.emitted ++ [o.name] }
      else .ok { res with isTruncated := true, nextMarker := nm, pushed := some nm }

/-- `Filesystem.ListObjects` from the validation of `maxKeys` on: a zero
`maxKeys` returns the empty result immediately; otherwise `maxKeys` is
clamped and the collection loop runs over the walker entries. -/
def listObjectsCore (maxKeys : ℤ) (stream : List ObjInfo) :
    Except Unit ListObjectsResult :=
  if maxKeys = 0 then .ok emptyListResult
  else listLoopGo (clampMaxKeys maxKeys) stream 0 [] emptyListResult

/-- A codec behaviour whose first `Verify` succeeds with `true` and whose
`Join` succeeds. -/
def okCodec : BlockCodec := ⟨.ok true, .ok (), .ok true, .ok ()⟩

/-- A codec behaviour whose first `Verify` returns the error `7`. -/
def badCodec : BlockCodec := ⟨.error 7, .ok (), .ok true, .ok ()⟩

/-- A sample walker stream: object `a`, directory `p`, a reserved
`$tmpobject` temporary, object `b`. -/
def sampleStream : List ObjInfo :=
  [⟨"a".data, false, false⟩, ⟨"p".data, true, false⟩,
   ⟨"x$tmpobject".data, false, false⟩, ⟨"b".data, false, false⟩]

/-- The result of collecting `sampleStream` with `maxKeys = 2`. -/
def sampleTruncResult : ListObjectsResult :=
  ⟨[⟨"a".data, false, false⟩], ["p".data], true, "p".data,
   ["a".data, "p".data], some "p".data⟩

/-- The result of collecting `sampleStream` with `maxKeys = 10`. -/
def sampleFullResult : ListObjectsResult :=
  ⟨[⟨"a".data, false, false⟩, ⟨"b".data, false, false⟩], ["p".data], false, [],
   ["a".data, "p".data, "b".data], none⟩

/-- Claim C10: `getMetaDataFileVersions` writes `diskVersionMap[disk] = -1`
on its nil named-return map as soon as there is one storage disk, so the
probe faults instead of returning a map with one entry per disk; only the
empty disk set avoids the write (and then the nil map itself is
returned). -/
theorem getMetaDataFileVersions_nilMap_fault :
    getMetaDataFileVersions [(0, .readError)] = .error .nilMapWrite
    ∧ getMetaDataFileVersions [] = .ok none := by
  constructor <;> rfl

/-- Claim C4: with a single quorum disk whose `part` open succeeds, the
store `readers[i] = erasuredPartReader` hits the zero-length slice
`[]io.ReadCloser{}` at index `0` and faults, refuting the in-bounds
claim. -/
theorem readFileOpenPhase_oob_fault :
    readFileOpenPhase [some 0] 1 = .fault .indexOutOfRange := by
  rfl

/-- Claim C3: with backend ordering `[10, 20]` (both disks at version `0`)
and the legal map iteration order that lists disk `20` first, the quorum
entry for disk `20` carries index `0`, while its position in the backend
ordering is `1`: the stored index is the iteration counter, not the
backend ordinal. -/
theorem quorum_index_not_backend_ordinal :
    List.Perm [((20 : ℕ), (0 : ℤ)), (10, 0)]
      (getMetaDataFileVersionsInit [(10, .noVersion), (20, .noVersion)])
    ∧ getReadFileQuorumDisks [(20, 0), (10, 0)] = [⟨20, 0⟩, ⟨10, 1⟩]
    ∧ List.indexOf 20 [10, 20] = 1 := by
  refine ⟨?_, by rfl, by rfl⟩
  decide

theorem le_foldl_max (m : List (ℕ × ℤ)) :
    ∀ x : ℤ, x ≤ m.foldl (fun a p => max a p.2) x := by
  induction m with
  | nil => intro x; simp
  | cons p rest ih =>
      intro x
      simp only [List.foldl_cons]
      exact le_trans (le_max_left x p.2) (ih (max x p.2))

theorem quorumOf_cons (d : ℕ) (v : ℤ) (rest : List (ℕ × ℤ)) (M : ℤ) (i : ℕ) :
    quorumOf ((d, v) :: rest) M i =
      (if v = M then [⟨d, i⟩] else []) ++ quorumOf rest M (i + 1) := by
  simp only [quorumOf, enumFrom, List.filterMap_cons]
  split <;> split <;> simp_all

theorem quorumFold_eq (m : List (ℕ × ℤ)) :
    ∀ (hv : ℤ) (i : ℕ) (q : List QuorumDisk),
      quorumFold m hv i q =
        (if m.foldl (fun a p => max a p.2) hv = hv then q else [])
          ++ quorumOf m (m.foldl (fun a p => max a p.2) hv) i := by
  induction m with
  | nil =>
      intro hv i q
      simp [quorumFold, quorumOf, enumFrom]
  | cons p rest ih =>
      intro hv i q
      obtain ⟨d, v⟩ := p
      simp only [List.foldl_cons, quorumFold]
      rw [quorumOf_cons]
      by_cases h1 : hv < v
      · rw [if_pos h1, ih v (i + 1) [QuorumDisk.mk d i]]
        have hmax : max hv v = v := max_eq_right (le_of_lt h1)
        simp only [hmax]
        have hge : v ≤ rest.foldl (fun a p => max a p.2) v := le_foldl_max rest v
        have hne : rest.foldl (fun a p => max a p.2) v ≠ hv := by omega
        rw [if_neg hne]
        by_cases h2 : rest.foldl (fun a p => max a p.2) v = v
        · rw [if_pos h2, if_pos h2.symm]; simp
        · rw [if_neg h2, if_neg (fun hc => h2 hc.symm)]; simp
      · rw [if_neg h1]
        by_cases h2 : v = hv
        · subst h2
          rw [if_pos rfl, ih v (i + 1) (q ++ [QuorumDisk.mk d i])]
          have hmax : max v v = v := max_self v
          simp only [hmax]
          by_cases h3 : rest.foldl (fun a p => max a p.2) v = v
          · rw [if_pos h3, if_pos h3, if_pos h3.symm]; simp
          · rw [if_neg h3, if_neg h3, if_neg (fun hc => h3 hc.symm)]; simp
        · rw [if_neg h2, ih hv (i + 1) q]
          have hmax : max hv v = hv := max_eq_left (by omega)
          simp only [hmax]
          have hge : hv ≤ rest.foldl (fun a p => max a p.2) hv := le_foldl_max rest hv
          have hvne : v ≠ rest.foldl (fun a p => max a p.2) hv := by
            intro hc
            have hlt : v < hv := lt_of_le_of_ne (not_lt.mp h1) h2
            omega
          rw [if_neg hvne]
          simp

/-- Claim C2 (amended): `getReadFileQuorumDisks` returns exactly the disks
whose version equals `max(0, max_i version_i)` (the `higherVersion`
accumulator starts at `0`, so when every disk reports a negative version
— e.g. `-1` for unreachable — the set is empty rather than all disks),
each tagged with its position in the map iteration order; `ReadFile`
fails with `errReadQuorum` if and only if this set has fewer than
`readQuorum` elements.  The per-disk versions feeding the map are `-1`
for an unreachable disk or malformed JSON and `0` for a missing
`file.version`. -/
theorem getReadFileQuorumDisks_spec (m : List (ℕ × ℤ)) (rq : ℕ) :
    getReadFileQuorumDisks m = quorumOf m (higherVersionFinal m) 0
    ∧ (readFileQuorumCheck m rq = .error .errReadQuorum ↔
        (getReadFileQuorumDisks m).length < rq)
    ∧ metaVersion .readError = -1 ∧ metaVersion .jsonError = -1
    ∧ metaVersion .noVersion = 0 := by
  refine ⟨?_, ?_, rfl, rfl, rfl⟩
  · rw [getReadFileQuorumDisks, quorumFold_eq m 0 0 [], higherVersionFinal]
    split <;> simp
  · by_cases h : (getReadFileQuorumDisks m).length < rq <;>
      simp [readFileQuorumCheck, h]

/-- Claim C2 counterexample: a single disk whose metadata read fails gets
version `-1`; the spec's quorum set `{d : version_d = V*}` then contains
that disk (`V* = -1`), so with `readQuorum = 1` the spec predicts success,
but the code computes an empty quorum set and fails with
`errReadQuorum`. -/
theorem getReadFileQuorumDisks_spec_cex :
    readFileQuorumCheck (getMetaDataFileVersionsInit [(0, .readError)]) 1
      = .error .errReadQuorum
    ∧ (specQuorumDisks (getMetaDataFileVersionsInit [(0, .readError)])).length = 1 := by
  constructor <;> rfl

theorem readShardBlock_eq (L : ℕ) (rr : ShardReader) :
    (readShardBlock L (some rr)).1 =
      if rr.broken then none
      else if rr.data.length = 0 ∧ 0 < L then none
      else some (rr.data.take L ++ List.replicate (L - min L rr.data.length) 0) := by
  simp only [readShardBlock, readFull]
  by_cases hbr : rr.broken
  · simp [hbr]
  · by_cases hLen : rr.data.length = 0 ∧ 0 < L
    · have hmin : min L rr.data.length = 0 := by omega
      have hne : min L rr.data.length ≠ L := by omega
      have h0L : ¬(0 = L) := by omega
      simp [hbr, hmin, hne, hLen, h0L]
    · rcases (by omega : min L rr.data.length = L ∨
          (min L rr.data.length ≠ 0 ∧ min L rr.data.length ≠ L)) with h | ⟨h0, hL⟩
      · simp [hbr, h, hLen]
        intro hd
        have hld : rr.data.length = 0 := by simp [hd]
        omega
      · simp [hbr, h0, hL, hLen]
        intro hd
        have hld : rr.data.length = 0 := by simp [hd]
        omega

/-- Claim C5 counterexample: a shard holding only `1` byte when
`encShardLen = 2` makes `io.ReadFull` return `io.ErrUnexpectedEOF`, which
the guard `err != nil && err != io.ErrUnexpectedEOF` lets through: the
partially filled zero-padded buffer `[7, 0]` is kept in `enBlocks`
instead of being reset to nil. -/
theorem readShardBlock_short_read_kept :
    (readFull ⟨[7], false⟩ 2).2.1 = ReadErr.unexpectedEOF
    ∧ (readShardBlock 2 (some ⟨[7], false⟩)).1 = some [7, 0] := by
  constructor <;> rfl

/-- Claim C5 (amended): for each shard at position `i` the loop reads into
a fresh buffer of exactly `encShardLen` bytes (every kept entry has that
length, and `getEncodedBlockLen` is the ceiling `⌈curBlockSize /
dataBlocks⌉`); a nil reader, an IO error, or an immediate EOF gives
`enBlocks[i] = nil` and the loop continues with the remaining shards; but
on a short read (`io.ErrUnexpectedEOF`) the partially filled zero-padded
buffer is kept, not nil'd; a full read keeps the `encShardLen` bytes
read. -/
theorem readShardBlock_spec (L : ℕ) (data : List ℕ) (r : Option ShardReader) :
    (∀ b, (readShardBlock L r).1 = some b → b.length = L)
    ∧ (readShardBlock L none).1 = none
    ∧ (readShardBlock L (some ⟨data, true⟩)).1 = none
    ∧ (0 < L → (readShardBlock L (some ⟨[], false⟩)).1 = none)
    ∧ (0 < data.length → data.length < L →
        (readShardBlock L (some ⟨data, false⟩)).1
          = some (data ++ List.replicate (L - data.length) 0))
    ∧ (L ≤ data.length →
        (readShardBlock L (some ⟨data, false⟩)).1 = some (data.take L))
    ∧ (∀ dB n : ℕ, 0 < dB →
        n ≤ dB * getEncodedBlockLen n dB ∧ dB * getEncodedBlockLen n dB < n + dB) := by
  refine ⟨?_, rfl, ?_, ?_, ?_, ?_, ?_⟩
  · intro b hb
    match r with
    | none => simp [readShardBlock] at hb
    | some rr =>
        rw [readShardBlock_eq] at hb
        split_ifs at hb with h1 h2
        · simp only [Option.some.injEq] at hb
          subst hb
          simp only [List.length_append, List.length_take, List.length_replicate]
          omega
  · rw [readShardBlock_eq]
    simp
  · intro hL
    rw [readShardBlock_eq]
    simp [hL]
  · intro hpos hlt
    rw [readShardBlock_eq]
    have htake : data.take L = data := List.take_of_length_le (le_of_lt hlt)
    have hmin : min L data.length = data.length := min_eq_right (le_of_lt hlt)
    have hcond : ¬(data.length = 0 ∧ 0 < L) := by omega
    simp only [hcond, if_false, if_neg, Bool.false_eq_true]
    simp only [htake, hmin]
  · intro hge
    rw [readShardBlock_eq]
    have hmin : min L data.length = L := min_eq_left hge
    have hcond : ¬(data.length = 0 ∧ 0 < L) := by omega
    simp only [hmin]
    simp [hcond]
    intro hd
    subst hd
    simpa using hge
  · intro dB n hdB
    have hdm := Nat.div_add_mod (n + dB - 1) dB
    have hmlt : (n + dB - 1) % dB < dB := Nat.mod_lt _ hdB
    unfold getEncodedBlockLen
    omega

theorem readShardBlock_spec_witness :
    (0 : ℕ) < 1 ∧ (1 : ℕ) < 2
    ∧ (readShardBlock 2 (some ⟨[5], false⟩)).1 = some ([5] ++ List.replicate (2 - 1) 0) := by
  refine ⟨by decide, by decide, ?_⟩
  have h := (readShardBlock_spec 2 [5] none).2.2.2.2.1 (by decide) (by decide)
  simpa using h

theorem checkBlockSize_eq_zero_iff (blocks : List (Option (List ℕ))) :
    checkBlockSize blocks = 0 ↔ ∀ b ∈ blocks, optLen b = 0 := by
  induction blocks with
  | nil => simp [checkBlockSize]
  | cons b rest ih =>
      by_cases hb : optLen b = 0
      · simp [checkBlockSize, hb, ih]
      · simp [checkBlockSize, hb]

/-- Claim C6: per producer block, if every `enBlocks` entry is nil or
zero-length the stream fails with the data-corrupted error (and that is
the only way this error arises); otherwise a failed first `Verify`
triggers `Reconstruct`, whose error fails the stream, and a still-false
re-`Verify` fails the stream with the corrupted-after-reconstruction
error; a block reaches `Join` (and hence the pipe) only after a `Verify`
returned true. -/
theorem processBlock_spec (codec : BlockCodec) (enBlocks : List (Option (List ℕ))) :
    (processBlock codec enBlocks = .error .dataCorrupted ↔ ∀ b ∈ enBlocks, optLen b = 0)
    ∧ (checkBlockSize enBlocks ≠ 0 → codec.verify1 = .ok false →
        ∀ e, codec.reconstruct = .error e →
          processBlock codec enBlocks = .error (.reconstructErr e))
    ∧ (checkBlockSize enBlocks ≠ 0 → codec.verify1 = .ok false →
        codec.reconstruct = .ok () → codec.verify2 = .ok false →
          processBlock codec enBlocks = .error .corruptedAfterReconstruction)
    ∧ (processBlock codec enBlocks = .ok () →
        (codec.verify1 = .ok true ∨
          (codec.verify1 = .ok false ∧ codec.reconstruct = .ok () ∧ codec.verify2 = .ok true))
        ∧ codec.join = .ok ()) := by
  refine ⟨?_, ?_, ?_, ?_⟩
  · rw [← checkBlockSize_eq_zero_iff]
    constructor
    · intro h
      by_contra hne
      unfold processBlock at h
      rw [if_neg hne] at h
      rcases hv : codec.verify1 with e | b
      · rw [hv] at h; cases h
      · rcases b with _ | _
        · rw [hv] at h
          rcases hr : codec.reconstruct with e | u
          · rw [hr] at h; cases h
          · rw [hr] at h
            rcases hv2 : codec.verify2 with e | b2
            · rw [hv2] at h; cases h
            · rcases b2 with _ | _
              · rw [hv2] at h; cases h
              · rw [hv2] at h
                rcases hj : codec.join with e | u2
                · rw [hj] at h; cases h
                · rw [hj] at h; cases h
        · rw [hv] at h
          rcases hj : codec.join with e | u2
          · rw [hj] at h; cases h
          · rw [hj] at h; cases h
    · intro h
      unfold processBlock
      rw [if_pos h]
  · intro hn hv e hr
    unfold processBlock
    rw [if_neg hn, hv, hr]
  · intro hn hv hr hv2
    unfold processBlock
    rw [if_neg hn, hv, hr, hv2]
  · intro h
    unfold processBlock at h
    by_cases hn : checkBlockSize enBlocks = 0
    · rw [if_pos hn] at h; cases h
    · rw [if_neg hn] at h
      rcases hv : codec.verify1 with e | b
      · rw [hv] at h; cases h
      · rcases b with _ | _
        · rw [hv] at h
          rcases hr : codec.reconstruct with e | u
          · rw [hr] at h; cases h
          · rw [hr] at h
            rcases hv2 : codec.verify2 with e | b2
            · rw [hv2] at h; cases h
            · rcases b2 with _ | _
              · rw [hv2] at h; cases h
              · rw [hv2] at h
                rcases hj : codec.join with e | u2
                · rw [hj] at h; cases h
                · exact ⟨Or.inr ⟨rfl, by cases u; rfl, rfl⟩, by cases u2; rfl⟩
        · rw [hv] at h
          rcases hj : codec.join with e | u2
          · rw [hj] at h; cases h
          · exact ⟨Or.inl rfl, by cases u2; rfl⟩

theorem processBlock_spec_witness :
    processBlock ⟨.ok false, .ok (), .ok false, .ok ()⟩ [some [1]]
      = .error .corruptedAfterReconstruction :=
  (processBlock_spec ⟨.ok false, .ok (), .ok false, .ok ()⟩ [some [1]]).2.2.1
    (by decide) rfl rfl rfl

theorem producerGo_nonpos (db tb : ℕ) (codecs : ℕ → BlockCodec) (k : ℕ)
    (readers : List (Option ShardReader)) (totalLeft : ℤ) (emitted : ℕ)
    (h : ¬ 0 < totalLeft) :
    producerGo db tb codecs k readers totalLeft emitted = ⟨.ok (), emitted, true⟩ := by
  rw [producerGo]
  simp [h]

theorem producerGo_pos (db tb : ℕ) (codecs : ℕ → BlockCodec) (k : ℕ)
    (readers : List (Option ShardReader)) (totalLeft : ℤ) (emitted : ℕ)
    (h : 0 < totalLeft) :
    producerGo db tb codecs k readers totalLeft emitted =
      (let curBlockSize : ℤ :=
        if erasureBlockSize < totalLeft then erasureBlockSize else totalLeft
       let curEncBlockSize := getEncodedBlockLen curBlockSize.toNat db
       let rb := readBlocks curEncBlockSize tb readers
       match processBlock (codecs k) rb.1 with
       | .error e => ⟨.error e, emitted, false⟩
       | .ok _ =>
           producerGo db tb codecs (k + 1) rb.2
             (totalLeft - erasureBlockSize) (emitted + curBlockSize.toNat)) := by
  rw [producerGo]
  simp [h]

theorem producerGo_step_err (db tb : ℕ) (codecs : ℕ → BlockCodec) (k : ℕ)
    (readers : List (Option ShardReader)) (totalLeft : ℤ) (emitted : ℕ)
    (e : StreamErr) (h : 0 < totalLeft)
    (hpb : processBlock (codecs k)
        (readBlocks
          (getEncodedBlockLen
            (if erasureBlockSize < totalLeft then erasureBlockSize else totalLeft).toNat db)
          tb readers).1 = .error e) :
    producerGo db tb codecs k readers totalLeft emitted = ⟨.error e, emitted, false⟩ := by
  rw [producerGo_pos db tb codecs k readers totalLeft emitted h]
  dsimp only
  rw [hpb]

theorem producerGo_step_ok (db tb : ℕ) (codecs : ℕ → BlockCodec) (k : ℕ)
    (readers : List (Option ShardReader)) (totalLeft : ℤ) (emitted : ℕ)
    (h : 0 < totalLeft)
    (hpb : processBlock (codecs k)
        (readBlocks
          (getEncodedBlockLen
            (if erasureBlockSize < totalLeft then erasureBlockSize else totalLeft).toNat db)
          tb readers).1 = .ok ()) :
    producerGo db tb codecs k readers totalLeft emitted =
      producerGo db tb codecs (k + 1)
        (readBlocks
          (getEncodedBlockLen
            (if erasureBlockSize < totalLeft then erasureBlockSize else totalLeft).toNat db)
          tb readers).2
        (totalLeft - erasureBlockSize)
        (emitted + (if erasureBlockSize < totalLeft then erasureBlockSize else totalLeft).toNat) := by
  rw [producerGo_pos db tb codecs k readers totalLeft emitted h]
  dsimp only
  rw [hpb]

theorem producerGo_ok_emitted (n : ℕ) :
    ∀ (db tb : ℕ) (codecs : ℕ → BlockCodec) (k : ℕ)
      (readers : List (Option ShardReader)) (totalLeft : ℤ) (emitted : ℕ),
      totalLeft.toNat ≤ n →
      (producerGo db tb codecs k readers totalLeft emitted).outcome = .ok () →
      (producerGo db tb codecs k readers totalLeft emitted).emitted
        = emitted + totalLeft.toNat := by
  induction n with
  | zero =>
      intro db tb codecs k readers totalLeft emitted hle hok
      have hnp : ¬ 0 < totalLeft := by omega
      rw [producerGo_nonpos db tb codecs k readers totalLeft emitted hnp]
      dsimp only
      omega
  | succ n ih =>
      intro db tb codecs k readers totalLeft emitted hle hok
      by_cases h : 0 < totalLeft
      · rcases hpb : processBlock (codecs k)
            (readBlocks
              (getEncodedBlockLen
                (if erasureBlockSize < totalLeft then erasureBlockSize else totalLeft).toNat db)
              tb readers).1 with e | u
        · rw [producerGo_step_err db tb codecs k readers totalLeft emitted e h hpb] at hok
          cases hok
        · cases u
          rw [producerGo_step_ok db tb codecs k readers totalLeft emitted h hpb] at hok ⊢
          have hb : (totalLeft - erasureBlockSize).toNat ≤ n := by
            simp only [erasureBlockSize] at *
            omega
          rw [ih db tb codecs (k + 1) _ (totalLeft - erasureBlockSize) _ hb hok]
          by_cases hc : erasureBlockSize < totalLeft
          · simp only [hc, if_pos, erasureBlockSize] at *
            omega
          · simp only [hc, if_neg, erasureBlockSize] at *
            omega
      · rw [producerGo_nonpos db tb codecs k readers totalLeft emitted h]
        dsimp only
        omega

theorem producerGo_err_not_closed (n : ℕ) :
    ∀ (db tb : ℕ) (codecs : ℕ → BlockCodec) (k : ℕ)
      (readers : List (Option ShardReader)) (totalLeft : ℤ) (emitted : ℕ) (e : StreamErr),
      totalLeft.toNat ≤ n →
      (producerGo db tb codecs k readers totalLeft emitted).outcome = .error e →
      (producerGo db tb codecs k readers totalLeft emitted).readersClosed = false := by
  induction n with
  | zero =>
      intro db tb codecs k readers totalLeft emitted e hle herr
      have hnp : ¬ 0 < totalLeft := by omega
      rw [producerGo_nonpos db tb codecs k readers totalLeft emitted hnp] at herr
      cases herr
  | succ n ih =>
      intro db tb codecs k readers totalLeft emitted e hle herr
      by_cases h : 0 < totalLeft
      · rcases hpb : processBlock (codecs k)
            (readBlocks
              (getEncodedBlockLen
                (if erasureBlockSize < totalLeft then erasureBlockSize else totalLeft).toNat db)
              tb readers).1 with e2 | u
        · rw [producerGo_step_err db tb codecs k readers totalLeft emitted e2 h hpb]
        · cases u
          rw [producerGo_step_ok db tb codecs k readers totalLeft emitted h hpb] at herr ⊢
          have hb : (totalLeft - erasureBlockSize).toNat ≤ n := by
            simp only [erasureBlockSize] at *
            omega
          exact ih db tb codecs (k + 1) _ (totalLeft - erasureBlockSize) _ e hb herr
      · rw [producerGo_nonpos db tb codecs k readers totalLeft emitted h] at herr
        cases herr

theorem producerGo_concrete_ok :
    producerGo 1 1 (fun _ => okCodec) 0 [some ⟨[9, 9, 9, 9], false⟩] 4 0
      = ⟨.ok (), 4, true⟩ := by
  rw [producerGo_step_ok 1 1 (fun _ => okCodec) 0 [some ⟨[9, 9, 9, 9], false⟩] 4 0
        (by decide) (by decide)]
  rw [producerGo_nonpos _ _ _ _ _ _ _ (by decide)]
  decide

theorem producerGo_concrete_err :
    producerGo 1 1 (fun _ => badCodec) 0 [some ⟨[3], false⟩] 1 0
      = ⟨.error (.verifyErr 7), 0, false⟩ := by
  rw [producerGo_step_err 1 1 (fun _ => badCodec) 0 [some ⟨[3], false⟩] 1 0
        (.verifyErr 7) (by decide) (by decide)]

/-- Claim C1 (amended): the producer initializes its counter with
`var totalLeft = fileSize` — the offset is not subtracted — and loops
while `totalLeft > 0`, joining `min(erasureBlockSize, totalLeft)` decoded
bytes per iteration, so every producer run that closes the pipe cleanly
has written exactly `size` bytes into it, whatever the `offset`
argument. -/
theorem readFileProducer_emits_size (db tb : ℕ) (codecs : ℕ → BlockCodec)
    (readers : List (Option ShardReader)) (fileSize offset : ℤ)
    (h : (readFileProducer db tb codecs readers fileSize offset).outcome = .ok ()) :
    (readFileProducer db tb codecs readers fileSize offset).emitted = fileSize.toNat := by
  unfold readFileProducer at h ⊢
  simpa using producerGo_ok_emitted fileSize.toNat db tb codecs 0 readers fileSize 0 le_rfl h

/-- Claim C1 counterexample: one data shard, `file.size = 4`, `offset = 1`:
the producer completes cleanly having joined `4 = size` bytes into the
pipe, not `size − offset = 3`. -/
theorem readFileProducer_ignores_offset :
    (readFileProducer 1 1 (fun _ => okCodec) [some ⟨[9, 9, 9, 9], false⟩] 4 1).outcome
      = .ok ()
    ∧ (readFileProducer 1 1 (fun _ => okCodec) [some ⟨[9, 9, 9, 9], false⟩] 4 1).emitted = 4
    ∧ ((4 : ℤ) - 1).toNat ≠ 4 := by
  refine ⟨?_, ?_, by decide⟩ <;>
    (unfold readFileProducer; rw [producerGo_concrete_ok])

theorem readFileProducer_emits_size_witness :
    (readFileProducer 1 1 (fun _ => okCodec) [some ⟨[9, 9, 9, 9], false⟩] 4 0).outcome
      = .ok ()
    ∧ (readFileProducer 1 1 (fun _ => okCodec) [some ⟨[9, 9, 9, 9], false⟩] 4 0).emitted
      = (4 : ℤ).toNat :=
  have h : (readFileProducer 1 1 (fun _ => okCodec)
      [some ⟨[9, 9, 9, 9], false⟩] 4 0).outcome = .ok () := by
    unfold readFileProducer
    rw [producerGo_concrete_ok]
  ⟨h, readFileProducer_emits_size 1 1 (fun _ => okCodec)
      [some ⟨[9, 9, 9, 9], false⟩] 4 0 h⟩

/-- Claim C7: refuted on the reader side.  Every error path of the
producer returns right after `CloseWithError`, before the
reader-closing loop that only follows clean completion, so a run that
ends in a stream error leaves every opened shard reader unclosed; the
concrete run has an opened reader holding data and a failing `Verify`.
(The namespace lock itself is released by `defer` when `ReadFile`
returns.) -/
theorem producer_error_leaks_readers :
    (∀ (db tb : ℕ) (codecs : ℕ → BlockCodec) (k : ℕ)
        (readers : List (Option ShardReader)) (totalLeft : ℤ) (emitted : ℕ)
        (e : StreamErr),
      (producerGo db tb codecs k readers totalLeft emitted).outcome = .error e →
      (producerGo db tb codecs k readers totalLeft emitted).readersClosed = false)
    ∧ readFileProducer 1 1 (fun _ => badCodec) [some ⟨[3], false⟩] 1 0
        = ⟨.error (.verifyErr 7), 0, false⟩ := by
  constructor
  · intro db tb codecs k readers totalLeft emitted e h
    exact producerGo_err_not_closed totalLeft.toNat db tb codecs k readers
      totalLeft emitted e le_rfl h
  · unfold readFileProducer
    rw [producerGo_concrete_err]

theorem producer_error_leaks_readers_witness :
    (producerGo 1 1 (fun _ => badCodec) 0 [some ⟨[3], false⟩] 1 0).readersClosed = false :=
  producer_error_leaks_readers.1 1 1 (fun _ => badCodec) 0 [some ⟨[3], false⟩] 1 0
    (.verifyErr 7) (by rw [producerGo_concrete_err])

theorem getLastD_snoc {α : Type} (l : List α) (a d : α) :
    (l ++ [a]).getLastD d = a := by
  induction l generalizing d with
  | nil => rfl
  | cons b t ih =>
      rw [List.cons_append, List.getLastD_cons]
      exact ih b

theorem getLastD_mem {α : Type} (l : List α) (d : α) (h : l ≠ []) :
    l.getLastD d ∈ l := by
  induction l generalizing d with
  | nil => exact absurd rfl h
  | cons a t ih =>
      cases t with
      | nil => simp [List.getLastD_cons]
      | cons b t2 =>
          rw [List.getLastD_cons]
          exact List.mem_cons_of_mem a (ih a (by simp))

theorem listLoopGo_ok_spec :
    ∀ (stream : List ObjInfo) (mk i : ℕ) (nm : List Char) (res r : ListObjectsResult),
      res.isTruncated = false → res.pushed = none →
      i = res.emitted.length → nm = res.emitted.getLastD [] → i ≤ mk →
      (∀ o ∈ res.objects, reservedName o.name = false) →
      (∀ n ∈ res.prefixes, reservedName n = false) →
      (∀ n ∈ res.emitted, reservedName n = false) →
      res.objects.length + res.prefixes.length = res.emitted.length →
      listLoopGo mk stream i nm res = .ok r →
      ((r.isTruncated = false →
          r.pushed = none ∧ r.emitted.length < mk ∧ r.nextMarker = res.nextMarker)
        ∧ (r.isTruncated = true →
            r.emitted.length = mk ∧ r.nextMarker = r.emitted.getLastD []
            ∧ r.pushed = some r.nextMarker)
        ∧ (∀ o ∈ r.objects, reservedName o.name = false)
        ∧ (∀ n ∈ r.prefixes, reservedName n = false)
        ∧ (∀ n ∈ r.emitted, reservedName n = false)
        ∧ r.objects.length + r.prefixes.length = r.emitted.length
        ∧ r.emitted.length ≤ mk) := by
  intro stream
  induction stream with
  | nil =>
      intro mk i nm res r h1 h2 h3 h4 h5 h6 h7 h8 h9 hok
      simp only [listLoopGo] at hok
      by_cases him : i < mk
      · rw [if_pos him] at hok
        cases hok
        refine ⟨fun _ => ⟨h2, by omega, rfl⟩, fun htr => absurd (h1 ▸ htr) (by simp [h1]), h6, h7, h8, h9, by omega⟩
      · rw [if_neg him] at hok
        cases hok
        refine ⟨fun hf => by simp at hf, fun _ => ⟨by simpa using (by omega : i = mk) ▸ h3.symm, by simpa using h4, rfl⟩, by simpa using h6, by simpa using h7, by simpa using h8, by simpa using h9, by simp; omega⟩
  | cons o rest ih =>
      intro mk i nm res r h1 h2 h3 h4 h5 h6 h7 h8 h9 hok
      simp only [listLoopGo] at hok
      by_cases him : i < mk
      · rw [if_pos him] at hok
        by_cases herr : o.errFlag
        · rw [if_pos herr] at hok
          cases hok
        · rw [if_neg herr] at hok
          by_cases hres : reservedName o.name
          · rw [if_pos hres] at hok
            exact ih mk i nm res r h1 h2 h3 h4 h5 h6 h7 h8 h9 hok
          · rw [if_neg hres] at hok
            have hresf : reservedName o.name = false := by
              simpa using hres
            have hemit : ∀ n ∈ res.emitted ++ [o.name], reservedName n = false := by
              intro n hn
              rcases List.mem_append.mp hn with h | h
              · exact h8 n h
              · rw [List.mem_singleton] at h
                subst h
                exact hresf
            by_cases hdir : o.isDir
            · rw [if_pos hdir] at hok
              have hpref : ∀ n ∈ res.prefixes ++ [o.name], reservedName n = false := by
                intro n hn
                rcases List.mem_append.mp hn with h | h
                · exact h7 n h
                · rw [List.mem_singleton] at h
                  subst h
                  exact hresf
              have := ih mk (i + 1) o.name
                  { res with prefixes := res.prefixes ++ [o.name],
                             emitted := res.emitted ++ [o.name] } r
                  (by simpa using h1) (by simpa using h2)
                  (by simp [h3]) (by simp [getLastD_snoc]) (by omega)
                  (by simpa using h6)
                  (by simpa using hpref)
                  (by simpa using hemit)
                  (by simp; omega) hok
              refine ⟨fun hf => ?_, this.2.1, this.2.2⟩
              obtain ⟨hp, hl, hnm⟩ := this.1 hf
              exact ⟨hp, hl, by simpa using hnm⟩
            · rw [if_neg hdir] at hok
              have hobj : ∀ p ∈ res.objects ++ [o], reservedName p.name = false := by
                intro p hp
                rcases List.mem_append.mp hp with h | h
                · exact h6 p h
                · rw [List.mem_singleton] at h
                  subst h
                  exact hresf
              have := ih mk (i + 1) o.name
                  { res with objects := res.objects ++ [o],
                             emitted := res.emitted ++ [o.name] } r
                  (by simpa using h1) (by simpa using h2)
                  (by simp [h3]) (by simp [getLastD_snoc]) (by omega)
                  (by simpa using hobj)
                  (by simpa using h7)
                  (by simpa using hemit)
                  (by simp; omega) hok
              refine ⟨fun hf => ?_, this.2.1, this.2.2⟩
              obtain ⟨hp, hl, hnm⟩ := this.1 hf
              exact ⟨hp, hl, by simpa using hnm⟩
      · rw [if_neg him] at hok
        cases hok
        refine ⟨fun hf => by simp at hf, fun _ => ⟨by simpa using (by omega : i = mk) ▸ h3.symm, by simpa using h4, rfl⟩, by simpa using h6, by simpa using h7, by simpa using h8, by simpa using h9, by simp; omega⟩

/-- Claim C8: when the collection loop of `ListObjects` runs (`maxKeys ≠
0`) and returns a result, `IsTruncated` is false exactly when the walker
was exhausted before `maxKeys` entries were emitted (and then nothing is
pushed back to the cache); otherwise `IsTruncated` is true, `NextMarker`
is the name of the last emitted entry — object or common prefix — and the
walker is pushed back into the continuation cache keyed by that
marker. -/
theorem listObjects_truncation (maxKeys : ℤ) (stream : List ObjInfo)
    (r : ListObjectsResult) (hmk : maxKeys ≠ 0)
    (h : listObjectsCore maxKeys stream = .ok r) :
    (r.isTruncated = false ↔ r.emitted.length < clampMaxKeys maxKeys)
    ∧ (r.isTruncated = false → r.pushed = none)
    ∧ (r.isTruncated = true →
        r.nextMarker = r.emitted.getLastD []
        ∧ r.pushed = some r.nextMarker) := by
  unfold listObjectsCore at h
  rw [if_neg hmk] at h
  have hs := listLoopGo_ok_spec stream (clampMaxKeys maxKeys) 0 [] emptyListResult r
    rfl rfl rfl rfl (Nat.zero_le _)
    (by intro o ho; simp [emptyListResult] at ho)
    (by intro n hn; simp [emptyListResult] at hn)
    (by intro n hn; simp [emptyListResult] at hn)
    rfl h
  refine ⟨⟨fun hf => (hs.1 hf).2.1, ?_⟩, fun hf => (hs.1 hf).1,
    fun ht => ⟨(hs.2.1 ht).2.1, (hs.2.1 ht).2.2⟩⟩
  intro hlt
  by_contra hne
  have htr : r.isTruncated = true := by
    cases hbv : r.isTruncated
    · exact absurd hbv hne
    · rfl
  have := (hs.2.1 htr).1
  omega

/-- Claim C9: every name in the `Objects` and `Prefixes` of a
`ListObjects` result is free of the reserved substrings `$multiparts` and
`$tmpobject`; skipped entries are not counted toward `maxKeys` (counted
entries are exactly the emitted, filtered ones, and never exceed the
clamped `maxKeys`) and never become the next marker. -/
theorem listObjects_reserved_filtered (maxKeys : ℤ) (stream : List ObjInfo)
    (r : ListObjectsResult) (h : listObjectsCore maxKeys stream = .ok r) :
    (∀ o ∈ r.objects, reservedName o.name = false)
    ∧ (∀ n ∈ r.prefixes, reservedName n = false)
    ∧ (∀ n ∈ r.emitted, reservedName n = false)
    ∧ r.objects.length + r.prefixes.length = r.emitted.length
    ∧ r.emitted.length ≤ clampMaxKeys maxKeys
    ∧ (r.nextMarker = [] ∨ reservedName r.nextMarker = false) := by
  by_cases hmk : maxKeys = 0
  · unfold listObjectsCore at h
    rw [if_pos hmk] at h
    cases h
    refine ⟨?_, ?_, ?_, rfl, Nat.zero_le _, Or.inl rfl⟩ <;>
      (intro x hx; simp [emptyListResult] at hx)
  · unfold listObjectsCore at h
    rw [if_neg hmk] at h
    have hs := listLoopGo_ok_spec stream (clampMaxKeys maxKeys) 0 [] emptyListResult r
      rfl rfl rfl rfl (Nat.zero_le _)
      (by intro o ho; simp [emptyListResult] at ho)
      (by intro n hn; simp [emptyListResult] at hn)
      (by intro n hn; simp [emptyListResult] at hn)
      rfl h
    refine ⟨hs.2.2.1, hs.2.2.2.1, hs.2.2.2.2.1, hs.2.2.2.2.2.1, hs.2.2.2.2.2.2, ?_⟩
    by_cases hemp : r.nextMarker = []
    · exact Or.inl hemp
    · right
      cases htr : r.isTruncated
      · exact absurd ((hs.1 htr).2.2.trans rfl) hemp
      · have hnm := (hs.2.1 htr).2.1
        have hne : r.emitted ≠ [] := by
          intro he
          rw [he] at hnm
          exact hemp (hnm.trans rfl)
        have hmem := getLastD_mem r.emitted ([] : List Char) hne
        rw [hnm]
        exact hs.2.2.2.2.1 _ hmem

theorem listObjects_truncation_witness :
    listObjectsCore 2 sampleStream = .ok sampleTruncResult
    ∧ ((sampleTruncResult.isTruncated = false ↔
          sampleTruncResult.emitted.length < clampMaxKeys 2)
       ∧ (sampleTruncResult.isTruncated = false → sampleTruncResult.pushed = none)
       ∧ (sampleTruncResult.isTruncated = true →
            sampleTruncResult.nextMarker = sampleTruncResult.emitted.getLastD []
            ∧ sampleTruncResult.pushed = some sampleTruncResult.nextMarker)) :=
  ⟨by rfl, listObjects_truncation 2 sampleStream sampleTruncResult (by decide) (by rfl)⟩

theorem listObjects_reserved_witness :
    listObjectsCore 10 sampleStream = .ok sampleFullResult
    ∧ ((∀ o ∈ sampleFullResult.objects, reservedName o.name = false)
       ∧ (∀ n ∈ sampleFullResult.prefixes, reservedName n = false)
       ∧ (∀ n ∈ sampleFullResult.emitted, reservedName n = false)
       ∧ sampleFullResult.objects.length + sampleFullResult.prefixes.length
           = sampleFullResult.emitted.length
       ∧ sampleFullResult.emitted.length ≤ clampMaxKeys 10
       ∧ (sampleFullResult.nextMarker = []
           ∨ reservedName sampleFullResult.nextMarker = false)) :=
  ⟨by rfl, listObjects_reserved_filtered 10 sampleStream sampleFullResult (by rfl)⟩
